import Mathlib

/-!
# Tastefully Stained — watermarking core, shallowly embedded

Verification development for the `watermark_engine` package.  The repository's
constructor validation (`dct_processor.py`, `dwt_processor.py`), format
detection and dtype conversion (`utils/image_loader.py`) and configuration
masking (`utils/config.py`) are translated directly from the Python source.
The signal-processing bodies (`embed_watermark`, `extract_watermark`,
`calculate_quality_metrics`, the hybrid orchestrator) are `NotImplementedError`
stubs in the source ("Phase 2"); those operations are modelled from the
specification's component design (bitstream codec with length header,
checksum and redundancy; block-transform and multi-resolution engines writing
threshold-coded coefficients; orchestrator with strategy dispatch, per-pixel
merge and confidence-ranked fallback).  Images are pixel buffers over `ℚ`
(exact rational arithmetic standing in for the float pipeline).
-/

set_option maxRecDepth 100000

namespace Stained

deriving instance DecidableEq for Except

attribute [local semireducible] Rat.add Rat.mul Rat.inv Rat.sub Rat.ofScientific

/-! ## Bitstream codec helpers (Modelled from the spec, §4.1) -/

/-- Little-endian bit expansion of a natural number to a fixed width. -/
def natToBitsLE : ℕ → ℕ → List Bool
  | 0, _ => []
  | w + 1, n => (n % 2 == 1) :: natToBitsLE w (n / 2)

/-- Little-endian bit collapse, inverse of `natToBitsLE` below the width. -/
def bitsToNatLE : List Bool → ℕ
  | [] => 0
  | b :: bs => (if b then 1 else 0) + 2 * bitsToNatLE bs

theorem natToBitsLE_length (w n : ℕ) : (natToBitsLE w n).length = w := by
  induction w generalizing n with
  | zero => rfl
  | succ w ih => simp [natToBitsLE, ih]

theorem bitsToNatLE_natToBitsLE (w n : ℕ) :
    bitsToNatLE (natToBitsLE w n) = n % 2 ^ w := by
  induction w generalizing n with
  | zero => simp [natToBitsLE, bitsToNatLE, Nat.mod_one]
  | succ w ih =>
    have hsplit : n % 2 ^ (w + 1) = n % 2 + 2 * (n / 2 % 2 ^ w) := by
      rw [pow_succ']
      exact Nat.mod_mul
    rcases Nat.mod_two_eq_zero_or_one n with h | h <;>
      simp [natToBitsLE, bitsToNatLE, ih, hsplit, h]


/-- Consecutive groups of `r` samples: per-logical-bit vote tallies. -/
def groupsOf (r : ℕ) (xs : List α) : List (List α) :=
  (List.range (xs.length / r)).map (fun i => (xs.drop (i * r)).take r)

theorem groupsOf_nil (r : ℕ) : groupsOf r ([] : List α) = [] := by
  simp [groupsOf]

/-- Splitting off one full group. -/
theorem groupsOf_cons (r : ℕ) (hr : 1 ≤ r) (pre ys : List α)
    (hpre : pre.length = r) :
    groupsOf r (pre ++ ys) = pre :: groupsOf r ys := by
  unfold groupsOf
  have hlen : (pre ++ ys).length = r + ys.length := by simp [hpre]
  have hdiv : (pre ++ ys).length / r = ys.length / r + 1 := by
    rw [hlen, Nat.add_comm, Nat.add_div_right _ hr]
  rw [hdiv, List.range_succ_eq_map]
  simp only [List.map_cons, List.map_map]
  have hhead : List.take r (List.drop (0 * r) (pre ++ ys)) = pre := by
    rw [Nat.zero_mul, List.drop_zero, ← hpre, List.take_left]
  have htail :
      List.map ((fun i => List.take r (List.drop (i * r) (pre ++ ys))) ∘ Nat.succ)
        (List.range (ys.length / r))
        = List.map (fun i => List.take r (List.drop (i * r) ys))
            (List.range (ys.length / r)) := by
    apply List.map_congr_left
    intro i _
    simp only [Function.comp_apply, ← hpre]
    have hshift : Nat.succ i * pre.length = pre.length + i * pre.length := by
      rw [Nat.succ_mul, Nat.add_comm]
    rw [hshift, List.drop_append]
  rw [hhead, htail]

/-- Groups of an `r`-uniform flat map peel off exactly the images of `f`. -/
theorem groupsOf_flatMap (r : ℕ) (hr : 1 ≤ r) (f : β → List α)
    (hf : ∀ x, (f x).length = r) (xs : List β) (rest : List α) :
    groupsOf r (xs.flatMap f ++ rest) = xs.map f ++ groupsOf r rest := by
  induction xs with
  | nil => simp
  | cons x xs ih =>
    have : (x :: xs).flatMap f ++ rest = f x ++ (xs.flatMap f ++ rest) := by
      simp [List.flatMap_cons]
    rw [this, groupsOf_cons r hr _ _ (hf x), ih]
    simp

/-- Per-bit majority vote: `true` wins when it has strictly more votes. -/
def majorityOf (g : List Bool) : Bool :=
  decide (g.length < 2 * g.count true)

/-- Majority margin of one vote group, in `[0,1]`. -/
def marginOf (g : List Bool) : ℚ :=
  (max (g.count true) (g.length - g.count true) : ℕ) / (g.length : ℚ)

theorem majorityOf_replicate (r : ℕ) (hr : 1 ≤ r) (b : Bool) :
    majorityOf (List.replicate r b) = b := by
  cases b <;> simp [majorityOf, List.count_replicate]
  omega

theorem marginOf_replicate (r : ℕ) (hr : 1 ≤ r) (b : Bool) :
    marginOf (List.replicate r b) = 1 := by
  have hne : ((r : ℚ)) ≠ 0 := by
    exact_mod_cast Nat.one_le_iff_ne_zero.mp hr
  cases b <;> (simp [marginOf, List.count_replicate]; rw [div_self hne])

/-- Mean of a rational list (`0` on the empty list). -/
def meanOf (xs : List ℚ) : ℚ := xs.sum / (xs.length : ℚ)

theorem meanOf_ones (xs : List ℚ) (hne : xs ≠ []) (h : ∀ x ∈ xs, x = 1) :
    meanOf xs = 1 := by
  have hsum : xs.sum = (xs.length : ℚ) := by
    induction xs with
    | nil => simp
    | cons x xs ih =>
      rcases List.eq_nil_or_concat xs with h' | _
      all_goals
        simp only [List.sum_cons, List.length_cons, h x (by simp)]
        by_cases hx : xs = []
        · simp [hx]
        · rw [ih hx (fun y hy => h y (by simp [hy]))]
          push_cast
          ring
  have hlen : ((xs.length : ℚ)) ≠ 0 := by
    have : xs.length ≠ 0 := by
      simpa [List.length_eq_zero] using hne
    exact_mod_cast this
  rw [meanOf, hsum, div_self hlen]

/-- Modelled from the spec: payload checksum ("CRC or hash truncation"),
taken as the byte sum truncated to one byte. -/
def checksumOf (payload : List ℕ) : ℕ := payload.sum % 256

/-- Width of the fixed-size length header, in bits. -/
def headerWidth : ℕ := 16

/-- Modelled from the spec: the codeword laid out by the bitstream codec —
fixed-size length header, payload bytes, checksum byte, all LSB-first. -/
def codewordBits (payload : List ℕ) : List Bool :=
  natToBitsLE headerWidth payload.length
    ++ payload.flatMap (natToBitsLE 8)
    ++ natToBitsLE 8 (checksumOf payload)

/-- Modelled from the spec: `encode(payload, redundancy)` — codeword bits,
each repeated `r` times. -/
def encodeBits (payload : List ℕ) (r : ℕ) : List Bool :=
  (codewordBits payload).flatMap (fun b => List.replicate r b)

theorem codewordBits_length (payload : List ℕ) :
    (codewordBits payload).length = headerWidth + 8 * payload.length + 8 := by
  induction payload with
  | nil => simp [codewordBits, natToBitsLE_length]
  | cons p ps ih =>
    simp only [codewordBits, List.length_append, natToBitsLE_length,
      List.flatMap_cons, List.length_flatMap] at *
    simp [List.length_flatMap] at ih ⊢
    omega

theorem encodeBits_length (payload : List ℕ) (r : ℕ) :
    (encodeBits payload r).length = r * (headerWidth + 8 * payload.length + 8) := by
  have : ∀ (bs : List Bool), (bs.flatMap (fun b => List.replicate r b)).length
      = r * bs.length := by
    intro bs
    induction bs with
    | nil => simp
    | cons b bs ih => simp [ih]; ring
  rw [encodeBits, this, codewordBits_length]

/-- Payload-and-checksum phase of the decode, once the header length is known. -/
def decodeBody (groups : List (List Bool)) (len : ℕ) : Option (List ℕ) × ℚ :=
  if checksumOf ((groupsOf 8 (((groups.drop headerWidth).take (8 * len)).map majorityOf)).map bitsToNatLE)
      == bitsToNatLE ((((groups.drop headerWidth).drop (8 * len)).take 8).map majorityOf) then
    (some ((groupsOf 8 (((groups.drop headerWidth).take (8 * len)).map majorityOf)).map bitsToNatLE),
     meanOf ((groups.take headerWidth ++ (groups.drop headerWidth).take (8 * len)
        ++ ((groups.drop headerWidth).drop (8 * len)).take 8).map marginOf))
  else (none, 0)

/-- Modelled from the spec: majority-vote decode of per-bit tallies —
read the length header, then payload and checksum; declare success only on a
checksum match; confidence is the mean majority margin over the used bits;
a header pointing past the available bit budget is the CorruptedPayload
condition (null payload, zero confidence), not a crash. -/
def decodeVotes (groups : List (List Bool)) : Option (List ℕ) × ℚ :=
  if groups.length < headerWidth then (none, 0)
  else if (groups.drop headerWidth).length
      < 8 * bitsToNatLE ((groups.take headerWidth).map majorityOf) + 8 then (none, 0)
  else decodeBody groups (bitsToNatLE ((groups.take headerWidth).map majorityOf))

theorem length_flatMap_fixed (f : β → List α) (k : ℕ) (hf : ∀ x, (f x).length = k) :
    ∀ xs : List β, (xs.flatMap f).length = k * xs.length := by
  intro xs
  induction xs with
  | nil => simp
  | cons x xs ih => simp [ih, hf x]; ring

theorem map_majorityOf_replicate_map (r : ℕ) (hr : 1 ≤ r) (l : List Bool) :
    ((l.map (fun b => List.replicate r b)).map majorityOf) = l := by
  rw [List.map_map]
  conv_rhs => rw [← List.map_id l]
  apply List.map_congr_left
  intro b _
  simpa using majorityOf_replicate r hr b

/-- Clean-channel decode: unanimous vote groups for a codeword (followed by
anything) recover the payload with confidence exactly `1`. -/
theorem decodeVotes_clean (p : List ℕ) (r : ℕ) (junk : List (List Bool))
    (hr : 1 ≤ r) (hL : p.length < 2 ^ headerWidth) (hb : ∀ b ∈ p, b < 256) :
    decodeVotes ((codewordBits p).map (fun b => List.replicate r b) ++ junk)
      = (some p, 1) := by
  have hbytesLen : (p.flatMap (natToBitsLE 8)).length = 8 * p.length :=
    length_flatMap_fixed _ 8 (fun x => natToBitsLE_length 8 x) p
  set H := (natToBitsLE headerWidth p.length).map (fun b => List.replicate r b) with hH
  set P := (p.flatMap (natToBitsLE 8)).map (fun b => List.replicate r b) with hP
  set C := (natToBitsLE 8 (checksumOf p)).map (fun b => List.replicate r b) with hC
  have hgroups : (codewordBits p).map (fun b => List.replicate r b) ++ junk
      = H ++ (P ++ (C ++ junk)) := by
    simp [codewordBits, hH, hP, hC, List.append_assoc]
  have hHlen : H.length = headerWidth := by simp [hH, natToBitsLE_length]
  have hPlen : P.length = 8 * p.length := by simp [hP, hbytesLen]
  have hClen : C.length = 8 := by simp [hC, natToBitsLE_length]
  have htake : (H ++ (P ++ (C ++ junk))).take headerWidth = H :=
    List.take_left' hHlen
  have hdrop : (H ++ (P ++ (C ++ junk))).drop headerWidth = P ++ (C ++ junk) :=
    List.drop_left' hHlen
  have hmajH : H.map majorityOf = natToBitsLE headerWidth p.length :=
    map_majorityOf_replicate_map r hr _
  have hlenDecoded : bitsToNatLE (H.map majorityOf) = p.length := by
    rw [hmajH, bitsToNatLE_natToBitsLE]
    exact Nat.mod_eq_of_lt hL
  have htakeP : (P ++ (C ++ junk)).take (8 * p.length) = P :=
    List.take_left' hPlen
  have hdropP : (P ++ (C ++ junk)).drop (8 * p.length) = C ++ junk :=
    List.drop_left' hPlen
  have htakeC : (C ++ junk).take 8 = C := List.take_left' hClen
  have hmajP : P.map majorityOf = p.flatMap (natToBitsLE 8) :=
    map_majorityOf_replicate_map r hr _
  have hmajC : C.map majorityOf = natToBitsLE 8 (checksumOf p) :=
    map_majorityOf_replicate_map r hr _
  have hpayload : (groupsOf 8 (p.flatMap (natToBitsLE 8))).map bitsToNatLE = p := by
    have h8 : groupsOf 8 (p.flatMap (natToBitsLE 8) ++ ([] : List Bool))
        = p.map (natToBitsLE 8) ++ groupsOf 8 ([] : List Bool) :=
      groupsOf_flatMap 8 (by norm_num) _ (fun x => natToBitsLE_length 8 x) p []
    simp only [List.append_nil, groupsOf_nil] at h8
    rw [h8, List.map_map]
    conv_rhs => rw [← List.map_id p]
    apply List.map_congr_left
    intro b hbmem
    simp only [Function.comp_apply, bitsToNatLE_natToBitsLE, id_eq]
    exact Nat.mod_eq_of_lt (lt_of_lt_of_le (hb b hbmem) (by norm_num))
  have hck : bitsToNatLE (natToBitsLE 8 (checksumOf p)) = checksumOf p := by
    rw [bitsToNatLE_natToBitsLE]
    exact Nat.mod_eq_of_lt (lt_of_lt_of_le (Nat.mod_lt _ (by norm_num)) (by norm_num))
  have hall : H ++ P ++ C = (codewordBits p).map (fun b => List.replicate r b) := by
    simp [hH, hP, hC, codewordBits]
  have hconf : meanOf ((H ++ P ++ C).map marginOf) = 1 := by
    apply meanOf_ones
    · intro hnil
      have hlen0 : (((H ++ P ++ C).map marginOf)).length = 0 := by
        rw [hnil]; rfl
      simp only [List.length_map, List.length_append, hHlen, hPlen, hClen,
        headerWidth] at hlen0
      omega
    · intro x hx
      rw [hall, List.map_map] at hx
      rcases List.mem_map.mp hx with ⟨b, _, rfl⟩
      simpa using marginOf_replicate r hr b
  rw [hgroups, decodeVotes]
  rw [if_neg (by simp [hHlen, headerWidth])]
  rw [htake, hlenDecoded, hdrop]
  rw [if_neg (by simp [hPlen, hClen])]
  rw [decodeBody]
  rw [htake, hdrop, htakeP, hdropP, htakeC, hmajP, hmajC, hpayload, hck]
  rw [if_pos (by simp)]
  rw [hconf]

/-! ## Reversible pair transform (Modelled from the spec, §4.2–§4.3):
one step of an exactly invertible low/high frequency split over `ℚ`
(unnormalised Haar filter), shared by the block-transform engine and the
multi-resolution engine. -/

/-- Split a pixel list into consecutive pairs plus a remainder of at most one
trailing pixel. -/
def toPairs : List ℚ → List (ℚ × ℚ) × List ℚ
  | a :: b :: rest => ((a, b) :: (toPairs rest).1, (toPairs rest).2)
  | [a] => ([], [a])
  | [] => ([], [])

/-- Re-interleave consecutive pairs into a flat pixel list. -/
def fromPairs (p : List (ℚ × ℚ)) : List ℚ := p.flatMap (fun ab => [ab.1, ab.2])

/-- Low-frequency plane: pairwise sums. -/
def sumsOf (p : List (ℚ × ℚ)) : List ℚ := p.map (fun ab => ab.1 + ab.2)

/-- High-frequency (detail) plane: pairwise differences. -/
def diffsOf (p : List (ℚ × ℚ)) : List ℚ := p.map (fun ab => ab.1 - ab.2)

/-- Exact inverse step: rebuild pixel pairs from sum and difference planes. -/
def pairsOf (s d : List ℚ) : List (ℚ × ℚ) :=
  List.zipWith (fun x y => ((x + y) / 2, (x - y) / 2)) s d

theorem toPairs_snd_length : (xs : List ℚ) → (toPairs xs).2.length ≤ 1
  | [] => by simp [toPairs]
  | [a] => by simp [toPairs]
  | _ :: _ :: rest => by simpa [toPairs] using toPairs_snd_length rest

theorem toPairs_length : (xs : List ℚ) →
    2 * (toPairs xs).1.length + (toPairs xs).2.length = xs.length
  | [] => by simp [toPairs]
  | [a] => by simp [toPairs]
  | _ :: _ :: rest => by
    have := toPairs_length rest
    simp [toPairs]
    omega

theorem toPairs_fromPairs (p : List (ℚ × ℚ)) (l : List ℚ) (hl : l.length ≤ 1) :
    toPairs (fromPairs p ++ l) = (p, l) := by
  induction p with
  | nil =>
    match l with
    | [] => simp [fromPairs, toPairs]
    | [x] => simp [fromPairs, toPairs]
    | _ :: _ :: _ => simp at hl
  | cons ab p ih =>
    obtain ⟨a, b⟩ := ab
    have : fromPairs ((a, b) :: p) ++ l = a :: b :: (fromPairs p ++ l) := by
      simp [fromPairs]
    rw [this, toPairs, ih]

theorem fromPairs_length (p : List (ℚ × ℚ)) : (fromPairs p).length = 2 * p.length := by
  induction p with
  | nil => simp [fromPairs]
  | cons ab p ih => simp [fromPairs] at ih ⊢; omega

theorem sumsOf_pairsOf (s d : List ℚ) (h : s.length = d.length) :
    sumsOf (pairsOf s d) = s := by
  induction s generalizing d with
  | nil => simp [pairsOf, sumsOf]
  | cons x s ih =>
    match d with
    | [] => simp at h
    | y :: d =>
      simp only [pairsOf, List.zipWith_cons_cons, sumsOf, List.map_cons]
      rw [show (x + y) / 2 + (x - y) / 2 = x by ring]
      have := ih d (by simpa using h)
      simp only [pairsOf, sumsOf] at this
      rw [this]

theorem diffsOf_pairsOf (s d : List ℚ) (h : s.length = d.length) :
    diffsOf (pairsOf s d) = d := by
  induction s generalizing d with
  | nil =>
    match d with
    | [] => simp [pairsOf, diffsOf]
    | _ :: _ => simp at h
  | cons x s ih =>
    match d with
    | [] => simp at h
    | y :: d =>
      simp only [pairsOf, List.zipWith_cons_cons, diffsOf, List.map_cons]
      rw [show (x + y) / 2 - (x - y) / 2 = y by ring]
      have := ih d (by simpa using h)
      simp only [pairsOf, diffsOf] at this
      rw [this]

theorem pairsOf_length (s d : List ℚ) : (pairsOf s d).length = min s.length d.length := by
  simp [pairsOf]

/-- Overwrite a prefix of the detail plane with embedded coefficient values,
leaving the remaining coefficients untouched; always length-preserving. -/
def writeVals (vals d : List ℚ) : List ℚ := vals.take d.length ++ d.drop vals.length

theorem writeVals_length (vals d : List ℚ) : (writeVals vals d).length = d.length := by
  simp [writeVals]
  omega

theorem writeVals_of_le (vals d : List ℚ) (h : vals.length ≤ d.length) :
    writeVals vals d = vals ++ d.drop vals.length := by
  rw [writeVals, List.take_of_length_le h]

/-! ## Multi-resolution engine core (Modelled from the spec, §4.3): `level`-deep
decomposition; the chosen detail subband is the deepest level's difference
plane; odd-length remainders stay untouched at every level. -/

/-- The coefficients of the chosen (deepest-level) detail subband. -/
def dwtRead : ℕ → List ℚ → List ℚ
  | 0, _ => []
  | 1, xs => diffsOf (toPairs xs).1
  | n + 2, xs => dwtRead (n + 1) (sumsOf (toPairs xs).1)

/-- Decompose, overwrite the deepest detail subband, and reconstruct exactly. -/
def dwtWrite : ℕ → List ℚ → List ℚ → List ℚ
  | 0, _, xs => xs
  | 1, vals, xs =>
    fromPairs (pairsOf (sumsOf (toPairs xs).1)
      (writeVals vals (diffsOf (toPairs xs).1))) ++ (toPairs xs).2
  | n + 2, vals, xs =>
    fromPairs (pairsOf (dwtWrite (n + 1) vals (sumsOf (toPairs xs).1))
      (diffsOf (toPairs xs).1)) ++ (toPairs xs).2

theorem dwtWrite_length : (lvl : ℕ) → (vals xs : List ℚ) →
    (dwtWrite lvl vals xs).length = xs.length
  | 0, _, _ => rfl
  | 1, vals, xs => by
    have hlen := toPairs_length xs
    simp [dwtWrite, fromPairs_length, pairsOf_length, sumsOf, diffsOf,
      writeVals_length]
    omega
  | n + 2, vals, xs => by
    have hlen := toPairs_length xs
    have ih := dwtWrite_length (n + 1) vals (sumsOf (toPairs xs).1)
    simp [dwtWrite, fromPairs_length, pairsOf_length, sumsOf, diffsOf] at ih ⊢
    omega

/-- Reading the deepest detail subband after writing it recovers exactly the
written prefix. -/
theorem dwtRead_write : (lvl : ℕ) → (vals xs : List ℚ) →
    dwtRead lvl (dwtWrite lvl vals xs) = writeVals vals (dwtRead lvl xs)
  | 0, vals, xs => by simp [dwtRead, dwtWrite, writeVals]
  | 1, vals, xs => by
    have hl := toPairs_snd_length xs
    have hlen : (sumsOf (toPairs xs).1).length
        = (writeVals vals (diffsOf (toPairs xs).1)).length := by
      simp [sumsOf, writeVals_length, diffsOf]
    rw [dwtRead, dwtWrite, toPairs_fromPairs _ _ hl,
      diffsOf_pairsOf _ _ hlen, dwtRead]
  | n + 2, vals, xs => by
    have hl := toPairs_snd_length xs
    have hlen : (dwtWrite (n + 1) vals (sumsOf (toPairs xs).1)).length
        = (diffsOf (toPairs xs).1).length := by
      simp [dwtWrite_length, sumsOf, diffsOf]
    rw [dwtRead, dwtWrite, toPairs_fromPairs _ _ hl,
      sumsOf_pairsOf _ _ hlen, dwtRead_write (n + 1) vals _, dwtRead]

/-! ## Block-transform engine core (Modelled from the spec, §4.2): partition
into `block_size`-long tiles, one low/high split per tile, one selected
mid-band coefficient (the first difference) per tile; the remainder border is
left untouched and excluded from capacity. -/

/-- Fuel-indexed block partition: complete blocks plus the remainder border. -/
def dctBlocksF : ℕ → ℕ → List ℚ → List (List ℚ) × List ℚ
  | 0, _, xs => ([], xs)
  | fuel + 1, bs, xs =>
    if bs = 0 ∨ xs.length < bs then ([], xs)
    else ((xs.take bs) :: (dctBlocksF fuel bs (xs.drop bs)).1,
          (dctBlocksF fuel bs (xs.drop bs)).2)

/-- Block partition of a pixel list. -/
def dctBlocks (bs : ℕ) (xs : List ℚ) : List (List ℚ) × List ℚ :=
  dctBlocksF xs.length bs xs

theorem dctBlocksF_join : (fuel : ℕ) → (bs : ℕ) → (xs : List ℚ) →
    (dctBlocksF fuel bs xs).1.flatten ++ (dctBlocksF fuel bs xs).2 = xs
  | 0, _, _ => by simp [dctBlocksF]
  | fuel + 1, bs, xs => by
    rw [dctBlocksF]
    split
    · simp
    · simp [dctBlocksF_join fuel bs (xs.drop bs)]

theorem dctBlocksF_block_length : (fuel : ℕ) → (bs : ℕ) → (xs : List ℚ) →
    ∀ b ∈ (dctBlocksF fuel bs xs).1, b.length = bs
  | 0, _, _ => by simp [dctBlocksF]
  | fuel + 1, bs, xs => by
    rw [dctBlocksF]
    split
    · simp
    · rename_i hcond
      push_neg at hcond
      intro b hb
      rcases List.mem_cons.mp hb with rfl | hmem
      · exact List.length_take_of_le (le_of_not_lt (by omega))
      · exact dctBlocksF_block_length fuel bs (xs.drop bs) b hmem

theorem dctBlocksF_rem : (fuel : ℕ) → (bs : ℕ) → (xs : List ℚ) →
    xs.length ≤ fuel → (dctBlocksF fuel bs xs).2.length < bs ∨ bs = 0
  | 0, bs, xs, h => by
    rcases Nat.eq_zero_or_pos bs with h0 | h1
    · exact Or.inr h0
    · left
      simp [dctBlocksF]
      omega
  | fuel + 1, bs, xs, h => by
    rw [dctBlocksF]
    split
    · rename_i hcond
      rcases hcond with h0 | hlt
      · exact Or.inr h0
      · exact Or.inl hlt
    · rename_i hcond
      push_neg at hcond
      exact dctBlocksF_rem fuel bs (xs.drop bs)
        (by simp; omega)

/-- Re-partitioning length-`bs` blocks followed by a short border recovers them. -/
theorem dctBlocksF_rebuild : (bl : List (List ℚ)) → (fuel bs : ℕ) → (rem : List ℚ) →
    1 ≤ bs → (∀ b ∈ bl, b.length = bs) → rem.length < bs →
    (bl.flatten ++ rem).length ≤ fuel →
    dctBlocksF fuel bs (bl.flatten ++ rem) = (bl, rem)
  | [], fuel, bs, rem, hbs, hbl, hrem, hfuel => by
    match fuel with
    | 0 => simp [dctBlocksF]
    | fuel + 1 =>
      rw [dctBlocksF, if_pos]
      · simp
      · right
        simpa using hrem
  | b :: bl, fuel, bs, rem, hbs, hbl, hrem, hfuel => by
    have hb : b.length = bs := hbl b (by simp)
    match fuel with
    | 0 =>
      exfalso
      simp [hb] at hfuel
      omega
    | fuel + 1 =>
      have hxs : (b :: bl).flatten ++ rem = b ++ (bl.flatten ++ rem) := by simp
      rw [hxs, dctBlocksF, if_neg, List.take_left' hb, List.drop_left' hb,
        dctBlocksF_rebuild bl fuel bs rem hbs (fun x hx => hbl x (by simp [hx]))
          hrem (by rw [hxs] at hfuel; simp [hb] at hfuel ⊢; omega)]
      push_neg
      constructor
      · omega
      · simp [hb]

/-- Overwrite one tile's selected mid-band coefficient (reconstructing the
tile's pixels exactly); tiles shorter than one pair are left unchanged. -/
def setFirstDiff (v : ℚ) (blk : List ℚ) : List ℚ :=
  if (toPairs blk).1 = [] then blk
  else fromPairs (pairsOf (sumsOf (toPairs blk).1)
    (v :: (diffsOf (toPairs blk).1).tail)) ++ (toPairs blk).2

/-- Sample one tile's selected mid-band coefficient. -/
def getFirstDiff (blk : List ℚ) : Option ℚ := (diffsOf (toPairs blk).1).head?

theorem toPairs_fst_eq_nil : (xs : List ℚ) → ((toPairs xs).1 = [] ↔ xs.length ≤ 1)
  | [] => by simp [toPairs]
  | [a] => by simp [toPairs]
  | a :: b :: rest => by
    simp [toPairs]

theorem setFirstDiff_length (v : ℚ) (blk : List ℚ) :
    (setFirstDiff v blk).length = blk.length := by
  rw [setFirstDiff]
  split
  · rfl
  · rename_i hne
    have hlen := toPairs_length blk
    have hp : 1 ≤ (toPairs blk).1.length := by
      rcases Nat.eq_zero_or_pos (toPairs blk).1.length with h0 | h1
      · exact absurd (List.length_eq_zero.mp h0) hne
      · exact h1
    simp [fromPairs_length, pairsOf_length, sumsOf, diffsOf]
    omega

theorem getFirstDiff_setFirstDiff (v : ℚ) (blk : List ℚ)
    (hne : (toPairs blk).1 ≠ []) :
    getFirstDiff (setFirstDiff v blk) = some v := by
  rw [setFirstDiff, if_neg hne, getFirstDiff]
  have hl := toPairs_snd_length blk
  have hp : 1 ≤ (toPairs blk).1.length :=
    Nat.pos_of_ne_zero (fun h0 => hne (List.length_eq_zero.mp h0))
  have hlen : (sumsOf (toPairs blk).1).length
      = (v :: (diffsOf (toPairs blk).1).tail).length := by
    simp [sumsOf, diffsOf]
    omega
  rw [toPairs_fromPairs _ _ hl, diffsOf_pairsOf _ _ hlen, List.head?_cons]

/-- Write successive embedded coefficient values into successive tiles. -/
def mapWithVals : List ℚ → List (List ℚ) → List (List ℚ)
  | [], bl => bl
  | _ :: _, [] => []
  | v :: vs, b :: bl => setFirstDiff v b :: mapWithVals vs bl

/-- The coefficient plane sampled by the block-transform engine. -/
def dctCoeffs (bs : ℕ) (xs : List ℚ) : List ℚ :=
  (dctBlocks bs xs).1.filterMap getFirstDiff

/-- Embed coefficient values tile-by-tile and reassemble the pixel list. -/
def dctEmbedData (bs : ℕ) (vals xs : List ℚ) : List ℚ :=
  (mapWithVals vals (dctBlocks bs xs).1).flatten ++ (dctBlocks bs xs).2

theorem getFirstDiff_isSome (blk : List ℚ) (h : 2 ≤ blk.length) :
    (getFirstDiff blk).isSome = true := by
  rw [getFirstDiff]
  have hne : (toPairs blk).1 ≠ [] := by
    intro hnil
    have := (toPairs_fst_eq_nil blk).mp hnil
    omega
  cases h' : (toPairs blk).1 with
  | nil => exact absurd h' hne
  | cons q qs => simp [diffsOf]

theorem mapWithVals_lengths (bs : ℕ) : ∀ (vals : List ℚ) (bl : List (List ℚ)),
    (∀ b ∈ bl, b.length = bs) → ∀ b' ∈ mapWithVals vals bl, b'.length = bs
  | [], bl, hbl => by simpa [mapWithVals] using hbl
  | _ :: _, [], _ => by simp [mapWithVals]
  | v :: vs, b :: bl, hbl => by
    intro b' hb'
    rcases List.mem_cons.mp hb' with rfl | hmem
    · rw [setFirstDiff_length]
      exact hbl b (by simp)
    · exact mapWithVals_lengths bs vs bl (fun x hx => hbl x (by simp [hx])) b' hmem

theorem mapWithVals_flatten_length : ∀ (vals : List ℚ) (bl : List (List ℚ)),
    (mapWithVals vals bl).flatten.length = bl.flatten.length
  | [], bl => by simp [mapWithVals]
  | _ :: _, [] => by simp [mapWithVals]
  | v :: vs, b :: bl => by
    simp [mapWithVals, setFirstDiff_length, mapWithVals_flatten_length vs bl]

theorem filterMap_getFirstDiff_length : ∀ bl : List (List ℚ),
    (∀ b ∈ bl, 2 ≤ b.length) → (bl.filterMap getFirstDiff).length = bl.length
  | [], _ => by simp
  | b :: bl, h => by
    obtain ⟨v, hv⟩ := Option.isSome_iff_exists.mp (getFirstDiff_isSome b (h b (by simp)))
    simp [List.filterMap_cons, hv,
      filterMap_getFirstDiff_length bl (fun x hx => h x (by simp [hx]))]

theorem filterMap_getFirstDiff_drop : ∀ (bl : List (List ℚ)) (k : ℕ),
    (∀ b ∈ bl, 2 ≤ b.length) →
    (bl.drop k).filterMap getFirstDiff = (bl.filterMap getFirstDiff).drop k
  | bl, 0, _ => by simp
  | [], k + 1, _ => by simp
  | b :: bl, k + 1, h => by
    obtain ⟨v, hv⟩ := Option.isSome_iff_exists.mp (getFirstDiff_isSome b (h b (by simp)))
    simp only [List.drop_succ_cons, List.filterMap_cons, hv, List.drop_succ_cons]
    exact filterMap_getFirstDiff_drop bl k (fun x hx => h x (by simp [hx]))

theorem filterMap_mapWithVals (bs : ℕ) (hbs : 2 ≤ bs) :
    ∀ (vals : List ℚ) (bl : List (List ℚ)), (∀ b ∈ bl, b.length = bs) →
    (mapWithVals vals bl).filterMap getFirstDiff
      = vals.take bl.length ++ (bl.drop vals.length).filterMap getFirstDiff
  | [], bl, hbl => by simp [mapWithVals]
  | v :: vs, [], _ => by simp [mapWithVals]
  | v :: vs, b :: bl, hbl => by
    have hset : getFirstDiff (setFirstDiff v b) = some v := by
      apply getFirstDiff_setFirstDiff
      intro hnil
      have := (toPairs_fst_eq_nil b).mp hnil
      have := hbl b (by simp)
      omega
    simp only [mapWithVals, List.filterMap_cons, hset, List.length_cons,
      List.take_succ_cons, List.drop_succ_cons, List.length_cons, List.cons_append]
    rw [filterMap_mapWithVals bs hbs vs bl (fun x hx => hbl x (by simp [hx]))]

theorem dctBlocksF_zero_bs : ∀ (fuel : ℕ) (xs : List ℚ),
    (dctBlocksF fuel 0 xs).1 = []
  | 0, _ => rfl
  | fuel + 1, xs => by rw [dctBlocksF, if_pos (Or.inl rfl)]

theorem two_le_of_dctCoeffs_ne_nil (bs : ℕ) (xs : List ℚ)
    (h : dctCoeffs bs xs ≠ []) : 2 ≤ bs := by
  by_contra hlt
  apply h
  interval_cases bs
  · rw [dctCoeffs, dctBlocks, dctBlocksF_zero_bs]
    rfl
  · rw [dctCoeffs, List.filterMap_eq_nil_iff]
    intro b hb
    have hlen : b.length = 1 := dctBlocksF_block_length xs.length 1 xs b hb
    rw [getFirstDiff, (toPairs_fst_eq_nil b).mpr (by omega)]
    rfl

theorem dctEmbedData_length (bs : ℕ) (vals xs : List ℚ) :
    (dctEmbedData bs vals xs).length = xs.length := by
  have hjoin := congrArg List.length (dctBlocksF_join xs.length bs xs)
  rw [dctEmbedData, List.length_append, mapWithVals_flatten_length]
  rw [dctBlocks]
  simp only [List.length_append] at hjoin
  omega

/-- Block-engine coefficient round trip: after embedding, the sampled
coefficient plane starts with exactly the embedded values. -/
theorem dctCoeffs_embedData (bs : ℕ) (hbs : 2 ≤ bs) (vals xs : List ℚ)
    (hv : vals.length ≤ (dctCoeffs bs xs).length) :
    dctCoeffs bs (dctEmbedData bs vals xs)
      = vals ++ (dctCoeffs bs xs).drop vals.length := by
  have hbl : ∀ b ∈ (dctBlocks bs xs).1, b.length = bs :=
    dctBlocksF_block_length xs.length bs xs
  have hbl2 : ∀ b ∈ (dctBlocks bs xs).1, 2 ≤ b.length := by
    intro b hb
    rw [hbl b hb]
    exact hbs
  have hrem : (dctBlocks bs xs).2.length < bs :=
    (dctBlocksF_rem xs.length bs xs le_rfl).resolve_right (by omega)
  have hbl' : ∀ b' ∈ mapWithVals vals (dctBlocks bs xs).1, b'.length = bs :=
    mapWithVals_lengths bs vals (dctBlocks bs xs).1 hbl
  have hrebuild : dctBlocks bs (dctEmbedData bs vals xs)
      = (mapWithVals vals (dctBlocks bs xs).1, (dctBlocks bs xs).2) := by
    rw [dctBlocks, dctEmbedData]
    exact dctBlocksF_rebuild _ _ bs _ (by omega) hbl' hrem le_rfl
  have hlenf : ((dctBlocks bs xs).1.filterMap getFirstDiff).length
      = (dctBlocks bs xs).1.length :=
    filterMap_getFirstDiff_length _ hbl2
  have hvb : vals.length ≤ (dctBlocks bs xs).1.length := by
    rw [← hlenf]
    exact hv
  rw [dctCoeffs, hrebuild, filterMap_mapWithVals bs hbs vals _ hbl,
    List.take_of_length_le hvb, filterMap_getFirstDiff_drop _ _ hbl2]
  rfl

/-! ## Data model and engine classes -/

/-- Numpy element types appearing in the image pipeline. -/
inductive NpDType
  | uint8
  | uint16
  | float32
  | float64
  | intOther
deriving DecidableEq, Repr

/-- Normalized image data handed to the core by the image-I/O adapter. -/
structure PixelBuffer where
  height : ℕ
  width : ℕ
  channels : ℕ
  dtype : NpDType
  data : List ℚ
deriving DecidableEq, Repr

/-- Error taxonomy of the watermarking core (spec §7). -/
inductive WatermarkError
  | capacityExceeded
  | invalidParameter (msg : String)
deriving DecidableEq, Repr

/-- DCT-based watermarking engine (from `core/dct_processor.py`). -/
structure DCTWatermarker where
  strength : ℚ
  block_size : ℕ
deriving DecidableEq, Repr

/-- DWT-based watermarking engine (from `core/dwt_processor.py`). -/
structure DWTWatermarker where
  wavelet : String
  level : ℤ
  strength : ℚ
deriving DecidableEq, Repr

/-- Fixed supported wavelet identifiers (from `dwt_processor.py`). -/
def DWTWatermarker.SUPPORTED_WAVELETS : List String :=
  ["db4", "db2", "haar", "sym4", "coif1"]

/-- Translated from `DCTWatermarker.__init__`: reject strength outside
`[0,1]`; reject `block_size` failing the `block_size & (block_size - 1) != 0`
power-of-two test (note that the test is on the machine integer, with natural
subtraction at `0`). -/
def DCTWatermarker.init (strength : ℚ) (block_size : ℕ) :
    Except String DCTWatermarker :=
  if ¬(0 ≤ strength ∧ strength ≤ 1) then
    .error "Strength must be in range [0.0, 1.0]"
  else if block_size &&& (block_size - 1) ≠ 0 then
    .error "Block size must be a power of 2"
  else
    .ok ⟨strength, block_size⟩

/-- Default DCT parameters (from the Python signature
`__init__(self, strength=0.5, block_size=8)`). -/
def DCTWatermarker.default_strength : ℚ := 1 / 2

def DCTWatermarker.default_block_size : ℕ := 8

/-- Translated from `DWTWatermarker.__init__`: reject unsupported wavelets,
non-positive levels and strength outside `[0,1]`, in that order. -/
def DWTWatermarker.init (wavelet : String) (level : ℤ) (strength : ℚ) :
    Except String DWTWatermarker :=
  if wavelet ∉ DWTWatermarker.SUPPORTED_WAVELETS then
    .error "Unsupported wavelet"
  else if level < 1 then
    .error "Level must be positive"
  else if ¬(0 ≤ strength ∧ strength ≤ 1) then
    .error "Strength must be in range [0.0, 1.0]"
  else
    .ok ⟨wavelet, level, strength⟩

/-- Modelled from the spec: the embedded coefficient value for one bit —
it exceeds the strength-scaled threshold (by a fixed unit margin) in the
direction that encodes the bit. -/
def bitAmp (strength : ℚ) (b : Bool) : ℚ :=
  if b then strength + 1 else -(strength + 1)

theorem decide_pos_bitAmp (strength : ℚ) (hs : 0 ≤ strength) (b : Bool) :
    decide (0 < bitAmp strength b) = b := by
  cases b <;> simp [bitAmp] <;> linarith

theorem map_decide_pos_bitAmp (strength : ℚ) (hs : 0 ≤ strength)
    (bits : List Bool) :
    ((bits.map (bitAmp strength)).map (fun c => decide (0 < c))) = bits := by
  rw [List.map_map]
  conv_rhs => rw [← List.map_id bits]
  apply List.map_congr_left
  intro b _
  simpa using decide_pos_bitAmp strength hs b

/-- Capacity of the block-transform engine, in encoded bits: one selected
coefficient per complete block; the border is excluded. -/
def DCTWatermarker.capacity_bits (w : DCTWatermarker) (img : PixelBuffer) : ℕ :=
  (dctCoeffs w.block_size img.data).length

/-- Modelled from the spec (§4.2, §7): the Python `embed_watermark` body is a
Phase-2 `NotImplementedError` stub.  Encode the payload, fail with
`CapacityExceeded` before touching any pixel if the encoded bits exceed
capacity, otherwise write threshold-coded coefficients block by block. -/
def DCTWatermarker.embed_watermark (w : DCTWatermarker) (img : PixelBuffer)
    (watermark_data : List ℕ) (redundancy : ℕ) : Except WatermarkError PixelBuffer :=
  if w.capacity_bits img < (encodeBits watermark_data redundancy).length then
    .error .capacityExceeded
  else
    let vals := (encodeBits watermark_data redundancy).map (bitAmp w.strength)
    .ok { img with data := dctEmbedData w.block_size vals img.data }

/-- Modelled from the spec (§4.2): sample the selected coefficients, vote by
sign against the zero boundary, decode. -/
def DCTWatermarker.extract_watermark (w : DCTWatermarker) (img : PixelBuffer)
    (redundancy : ℕ) : Option (List ℕ) × ℚ :=
  decodeVotes (groupsOf redundancy
    ((dctCoeffs w.block_size img.data).map (fun c => decide (0 < c))))

/-- Decomposition depth actually used by the engine (Python `int` level). -/
def DWTWatermarker.level_depth (w : DWTWatermarker) : ℕ := w.level.toNat

/-- Capacity of the multi-resolution engine: the chosen detail subband size. -/
def DWTWatermarker.capacity_bits (w : DWTWatermarker) (img : PixelBuffer) : ℕ :=
  (dwtRead w.level_depth img.data).length

/-- Modelled from the spec (§4.3, §7): the Python `embed_watermark` body is a
Phase-2 `NotImplementedError` stub.  Decompose `level` deep, overwrite the
chosen detail subband with threshold-coded coefficients, reconstruct. -/
def DWTWatermarker.embed_watermark (w : DWTWatermarker) (img : PixelBuffer)
    (watermark_data : List ℕ) (redundancy : ℕ) : Except WatermarkError PixelBuffer :=
  if w.capacity_bits img < (encodeBits watermark_data redundancy).length then
    .error .capacityExceeded
  else
    let vals := (encodeBits watermark_data redundancy).map (bitAmp w.strength)
    .ok { img with data := dwtWrite w.level_depth vals img.data }

/-- Modelled from the spec (§4.3): decompose, sample the same subband, vote. -/
def DWTWatermarker.extract_watermark (w : DWTWatermarker) (img : PixelBuffer)
    (redundancy : ℕ) : Option (List ℕ) × ℚ :=
  decodeVotes (groupsOf redundancy
    ((dwtRead w.level_depth img.data).map (fun c => decide (0 < c))))

/-- Engine-level round trip for the block-transform engine. -/
theorem dct_embed_extract (w : DCTWatermarker) (img : PixelBuffer)
    (p : List ℕ) (r : ℕ) (out : PixelBuffer)
    (hr : 1 ≤ r) (hs : 0 ≤ w.strength) (hL : p.length < 2 ^ headerWidth)
    (hb : ∀ b ∈ p, b < 256)
    (hok : w.embed_watermark img p r = .ok out) :
    w.extract_watermark out r = (some p, 1) := by
  rw [DCTWatermarker.embed_watermark] at hok
  split at hok
  · exact absurd hok (by simp)
  · rename_i hcap
    push_neg at hcap
    have hout : out.data = dctEmbedData w.block_size
        ((encodeBits p r).map (bitAmp w.strength)) img.data := by
      cases hok
      rfl
    have henclen : (encodeBits p r).length = r * (headerWidth + 8 * p.length + 8) :=
      encodeBits_length p r
    have hpos : 1 ≤ (encodeBits p r).length := by
      rw [henclen, headerWidth]
      have : 1 ≤ headerWidth + 8 * p.length + 8 := by rw [headerWidth]; omega
      calc 1 = 1 * 1 := by ring
      _ ≤ r * (16 + 8 * p.length + 8) := by
        apply Nat.mul_le_mul hr
        omega
    have hvlen : ((encodeBits p r).map (bitAmp w.strength)).length
        ≤ (dctCoeffs w.block_size img.data).length := by
      simpa [DCTWatermarker.capacity_bits] using hcap
    have hbs : 2 ≤ w.block_size := by
      apply two_le_of_dctCoeffs_ne_nil w.block_size img.data
      intro hnil
      have h0 := hvlen
      rw [hnil] at h0
      simp only [List.length_map, List.length_nil, Nat.le_zero] at h0
      omega
    rw [DCTWatermarker.extract_watermark, hout,
      dctCoeffs_embedData w.block_size hbs _ _ hvlen, List.map_append,
      map_decide_pos_bitAmp w.strength hs, encodeBits,
      groupsOf_flatMap r hr _ (fun b => List.length_replicate r b) _ _]
    exact decodeVotes_clean p r _ hr hL hb

/-- Engine-level round trip for the multi-resolution engine. -/
theorem dwt_embed_extract (w : DWTWatermarker) (img : PixelBuffer)
    (p : List ℕ) (r : ℕ) (out : PixelBuffer)
    (hr : 1 ≤ r) (hs : 0 ≤ w.strength) (hL : p.length < 2 ^ headerWidth)
    (hb : ∀ b ∈ p, b < 256)
    (hok : w.embed_watermark img p r = .ok out) :
    w.extract_watermark out r = (some p, 1) := by
  rw [DWTWatermarker.embed_watermark] at hok
  split at hok
  · exact absurd hok (by simp)
  · rename_i hcap
    push_neg at hcap
    have hout : out.data = dwtWrite w.level_depth
        ((encodeBits p r).map (bitAmp w.strength)) img.data := by
      cases hok
      rfl
    have hvlen : ((encodeBits p r).map (bitAmp w.strength)).length
        ≤ (dwtRead w.level_depth img.data).length := by
      simpa [DWTWatermarker.capacity_bits] using hcap
    rw [DWTWatermarker.extract_watermark, hout, dwtRead_write,
      writeVals_of_le _ _ hvlen, List.map_append,
      map_decide_pos_bitAmp w.strength hs, encodeBits,
      groupsOf_flatMap r hr _ (fun b => List.length_replicate r b) _ _]
    exact decodeVotes_clean p r _ hr hL hb

/-! ## Quality metrics (Modelled from the spec, §4.3/§6): the Python
`calculate_quality_metrics` body is a Phase-2 stub; PSNR is modelled as the
peak-to-noise power ratio (its decibel logarithm being monotone presentation)
and SSIM by its standard rational formula, both over exact rationals. -/

def mseOf (a b : List ℚ) : ℚ :=
  ((List.zipWith (fun x y => (x - y) ^ 2) a b).sum) / (max 1 (min a.length b.length) : ℚ)

def psnrOf (a b : List ℚ) : ℚ := 255 ^ 2 / (1 + mseOf a b)

def meanList (xs : List ℚ) : ℚ := xs.sum / (max 1 xs.length : ℚ)

def varList (xs : List ℚ) : ℚ :=
  meanList (xs.map (fun v => (v - meanList xs) ^ 2))

def covList (a b : List ℚ) : ℚ :=
  meanList (List.zipWith (fun x y => (x - meanList a) * (y - meanList b)) a b)

def ssimC1 : ℚ := 2601 / 400

def ssimC2 : ℚ := 23409 / 400

def ssimOf (a b : List ℚ) : ℚ :=
  ((2 * meanList a * meanList b + ssimC1) * (2 * covList a b + ssimC2))
    / ((meanList a ^ 2 + meanList b ^ 2 + ssimC1) * (varList a + varList b + ssimC2))

/-- Modelled from the spec: the `{"psnr": float, "ssim": float}` mapping
exposed by the multi-resolution engine and reused by the orchestrator. -/
def DWTWatermarker.calculate_quality_metrics (w : DWTWatermarker)
    (original watermarked : PixelBuffer) : List (String × ℚ) :=
  [("psnr", psnrOf original.data watermarked.data),
   ("ssim", ssimOf original.data watermarked.data)]

/-! ## Hybrid orchestrator (from `core/hybrid_algorithm_*.py`; the embed,
extract and analyze bodies are Phase-2 stubs and are modelled from the spec,
§4.4–§4.5). -/

/-- Watermarking strategy selection (from `hybrid_algorithm`). -/
inductive WatermarkStrategy
  | DCT_PRIMARY
  | DWT_PRIMARY
  | HYBRID_DUAL
  | AUTO
deriving DecidableEq, Repr

/-- Analyzed characteristics of an image for strategy selection
(fields from the `ImageCharacteristics` dataclass). -/
structure ImageCharacteristics where
  has_high_frequency : Bool
  has_text_content : Bool
  is_photographic : Bool
  edge_density : ℚ
  color_variance : ℚ
  recommended_strategy : WatermarkStrategy
deriving DecidableEq, Repr

/-- Result of a watermark extraction attempt (fields from the
`ExtractionResult` dataclass; the payload is nullable per spec §3/§7). -/
structure ExtractionResult where
  data : Option (List ℕ)
  confidence : ℚ
  strategy_used : WatermarkStrategy
  quality_metrics : List (String × ℚ)
deriving DecidableEq, Repr

/-- Outcome of a robust embed: watermarked buffer plus the attached
quality-metrics mapping (spec §6). -/
structure EmbedResult where
  image : PixelBuffer
  strategy_used : WatermarkStrategy
  quality_metrics : List (String × ℚ)
deriving DecidableEq, Repr

/-- Orchestrator over the two injected engines. -/
structure HybridWatermarkOrchestrator where
  dct_watermarker : DCTWatermarker
  dwt_watermarker : DWTWatermarker
deriving DecidableEq, Repr

/-- Modelled from the spec (§4.4): consecutive-pixel gradients. -/
def adjacentDiffs (xs : List ℚ) : List ℚ :=
  List.zipWith (fun a b => b - a) xs xs.tail

/-- Modelled from the spec (§4.4): fraction of pixels whose gradient magnitude
exceeds a threshold. -/
def edgeDensity (xs : List ℚ) : ℚ :=
  (((adjacentDiffs xs).filter (fun d => 10 < |d|)).length : ℚ)
    / (max 1 (adjacentDiffs xs).length : ℚ)

/-- Modelled from the spec (§4.4): energy ratio of the high-frequency plane. -/
def highFreqEnergy (xs : List ℚ) : ℚ :=
  ((diffsOf (toPairs xs).1).map (fun d => d ^ 2)).sum
    / (1 + (xs.map (fun v => v ^ 2)).sum)

/-- Modelled from the spec (§4.4): the analyzer — content descriptors and the
deterministic recommendation rule (high edge density and high-frequency
energy favor the block engine, smooth content favors the multi-resolution
engine, mixed content the hybrid dual strategy); threshold constants are
tunable per spec §9. -/
def HybridWatermarkOrchestrator.analyze_image_characteristics
    (o : HybridWatermarkOrchestrator) (img : PixelBuffer) : ImageCharacteristics :=
  let e := edgeDensity img.data
  let hf := highFreqEnergy img.data
  let strat :=
    if 3 / 10 ≤ e ∧ 1 / 100 ≤ hf then WatermarkStrategy.DCT_PRIMARY
    else if e ≤ 1 / 10 ∧ hf ≤ 1 / 1000 then WatermarkStrategy.DWT_PRIMARY
    else WatermarkStrategy.HYBRID_DUAL
  { has_high_frequency := decide (1 / 100 ≤ hf)
    has_text_content := decide (1 / 2 ≤ e)
    is_photographic := decide (e ≤ 1 / 10)
    edge_density := e
    color_variance := varList img.data
    recommended_strategy := strat }

/-- Strategy resolution: `AUTO` resolves through the analyzer exactly once; the three concrete
strategies resolve to themselves (spec §4.5). -/
def resolveStrategy (o : HybridWatermarkOrchestrator)
    (strategy : WatermarkStrategy) (img : PixelBuffer) : WatermarkStrategy :=
  match strategy with
  | .AUTO => (o.analyze_image_characteristics img).recommended_strategy
  | s => s

/-- Modelled from the spec (§4.5): merge the two engines' working copies by
taking, per pixel, the engine whose deviation from the source pixel is least
(the block engine's copy on ties). -/
def mergePixels : List ℚ → List ℚ → List ℚ → List ℚ
  | o :: os, x :: xs, y :: ys =>
    (if |x - o| ≤ |y - o| then x else y) :: mergePixels os xs ys
  | _, _, _ => []

/-- Modelled from the spec (§4.5): strategy-dispatched robust embedding; the
quality-metrics mapping is attached to every embed result; `CapacityExceeded`
from either engine aborts a hybrid embed. -/
def HybridWatermarkOrchestrator.embed_robust_watermark
    (o : HybridWatermarkOrchestrator) (img : PixelBuffer)
    (watermark_data : List ℕ) (redundancy : ℕ)
    (strategy : WatermarkStrategy) : Except WatermarkError EmbedResult :=
  match resolveStrategy o strategy img with
  | .DCT_PRIMARY =>
    (o.dct_watermarker.embed_watermark img watermark_data redundancy).map
      (fun out => ⟨out, .DCT_PRIMARY, o.dwt_watermarker.calculate_quality_metrics img out⟩)
  | .DWT_PRIMARY =>
    (o.dwt_watermarker.embed_watermark img watermark_data redundancy).map
      (fun out => ⟨out, .DWT_PRIMARY, o.dwt_watermarker.calculate_quality_metrics img out⟩)
  | _ => do
    let a ← o.dct_watermarker.embed_watermark img watermark_data redundancy
    let b ← o.dwt_watermarker.embed_watermark img watermark_data redundancy
    let merged := { img with data := mergePixels img.data a.data b.data }
    .ok ⟨merged, .HYBRID_DUAL, o.dwt_watermarker.calculate_quality_metrics img merged⟩

/-- Acceptance floor for extraction confidence (tunable per spec §9). -/
def acceptanceFloor : ℚ := 1 / 2

/-- Block-engine-only extraction attempt. -/
def HybridWatermarkOrchestrator.dct_attempt (o : HybridWatermarkOrchestrator)
    (img : PixelBuffer) (r : ℕ) : Option (List ℕ) × ℚ :=
  o.dct_watermarker.extract_watermark img r

/-- Multi-resolution-only extraction attempt. -/
def HybridWatermarkOrchestrator.dwt_attempt (o : HybridWatermarkOrchestrator)
    (img : PixelBuffer) (r : ℕ) : Option (List ℕ) × ℚ :=
  o.dwt_watermarker.extract_watermark img r

/-- Combined attempt: both engines' per-bit votes merged before decoding. -/
def HybridWatermarkOrchestrator.combined_attempt (o : HybridWatermarkOrchestrator)
    (img : PixelBuffer) (r : ℕ) : Option (List ℕ) × ℚ :=
  decodeVotes (List.zipWith (fun g1 g2 => g1 ++ g2)
    (groupsOf r ((dctCoeffs o.dct_watermarker.block_size img.data).map
      (fun c => decide (0 < c))))
    (groupsOf r ((dwtRead o.dwt_watermarker.level_depth img.data).map
      (fun c => decide (0 < c)))))

/-- Keep the strictly more confident attempt; on ties keep the earlier one. -/
def betterOf (a b : (Option (List ℕ) × ℚ) × WatermarkStrategy) :
    (Option (List ℕ) × ℚ) × WatermarkStrategy :=
  if a.1.2 < b.1.2 then b else a

/-- The highest-confidence attempt in fallback order
combined → multi-resolution only → block only (spec §4.5). -/
def HybridWatermarkOrchestrator.best_attempt (o : HybridWatermarkOrchestrator)
    (img : PixelBuffer) (r : ℕ) : (Option (List ℕ) × ℚ) × WatermarkStrategy :=
  betterOf (betterOf (o.combined_attempt img r, WatermarkStrategy.HYBRID_DUAL)
      (o.dwt_attempt img r, WatermarkStrategy.DWT_PRIMARY))
    (o.dct_attempt img r, WatermarkStrategy.DCT_PRIMARY)

/-- Modelled from the spec (§4.5, §7): extraction with fallback.  Never
throws: when no attempt reaches the acceptance floor, return a null payload
with the best confidence achieved rather than fabricating a payload. -/
def HybridWatermarkOrchestrator.extract_watermark
    (o : HybridWatermarkOrchestrator) (img : PixelBuffer) (r : ℕ) :
    ExtractionResult :=
  let best := o.best_attempt img r
  if acceptanceFloor ≤ best.1.2 then
    ⟨best.1.1, best.1.2, best.2, []⟩
  else
    ⟨none, best.1.2, best.2, []⟩

/-! ## Image loader utilities (translated from `utils/image_loader.py`). -/

/-- Supported image formats (from `image_loader.py`). -/
inductive ImageFormat
  | JPEG
  | PNG
  | WEBP
  | AVIF
  | HEIC
  | TIFF
  | BMP
  | UNKNOWN
deriving DecidableEq, Repr

/-- Magic bytes for format detection (from `ImageLoader.FORMAT_SIGNATURES`);
the `detect_format` body never consults them (magic-byte detection is a
Phase-2 TODO). -/
def FORMAT_SIGNATURES : List (List ℕ × ImageFormat) :=
  [([0xff, 0xd8, 0xff], .JPEG),
   ([0x89, 0x50, 0x4e, 0x47, 0x0d, 0x0a, 0x1a, 0x0a], .PNG),
   ([0x52, 0x49, 0x46, 0x46], .WEBP),
   ([0x00, 0x00, 0x00], .AVIF)]

/-- Extension-to-format mapping (from `ImageLoader.EXTENSION_MAP`). -/
def EXTENSION_MAP : List (String × ImageFormat) :=
  [(".jpg", .JPEG), (".jpeg", .JPEG), (".png", .PNG), (".webp", .WEBP),
   (".avif", .AVIF), (".heic", .HEIC), (".heif", .HEIC), (".tiff", .TIFF),
   (".tif", .TIFF), (".bmp", .BMP)]

/-- A `detect_format` argument: file path or raw bytes. -/
inductive LoadSource
  | path (p : String)
  | bytes (bs : List ℕ)
deriving DecidableEq, Repr

/-- Python `pathlib.Path(source).suffix`: the extension of the final path component —
from the last dot, provided that dot is neither the component's first nor its
last character. -/
def pathSuffix (p : String) : String :=
  let nm := (p.toList.reverse.takeWhile (fun c => c ≠ '/')).reverse
  let after := (nm.reverse.takeWhile (fun c => c ≠ '.')).reverse
  if after.length = nm.length then ""
  else if nm.length - 1 - after.length = 0 then ""
  else if after.length = 0 then ""
  else String.mk ('.' :: after)

/-- ASCII lowercasing of `str.lower()` on extensions. -/
def lowerStr (s : String) : String := String.mk (s.toList.map Char.toLower)

/-- Translated from `ImageLoader.detect_format`: for path input, try the
lowercased extension against `EXTENSION_MAP`; in every other case (including
all bytes input — magic-byte detection is an unimplemented TODO) return
`UNKNOWN`. -/
def ImageLoader.detect_format : LoadSource → ImageFormat
  | .path p =>
    match EXTENSION_MAP.lookup (lowerStr (pathSuffix p)) with
    | some f => f
    | none => .UNKNOWN
  | .bytes _ => .UNKNOWN

/-- A numpy array as seen by the dtype conversion helpers. -/
structure NpArray where
  dtype : NpDType
  data : List ℚ
deriving DecidableEq, Repr

/-- Translated from `ImageLoader.to_uint8`: `uint8` passes through unchanged;
floats are scaled by 255, clipped to `[0,255]` and truncated; `uint16` is
shifted right by 8; any other integer dtype is wrapped modulo 256. -/
def ImageLoader.to_uint8 (image : NpArray) : NpArray :=
  if image.dtype = .uint8 then image
  else if image.dtype = .float32 ∨ image.dtype = .float64 then
    ⟨.uint8, image.data.map (fun x => ((⌊min (max (x * 255) 0) 255⌋ : ℤ) : ℚ))⟩
  else if image.dtype = .uint16 then
    ⟨.uint8, image.data.map (fun x => ((⌊x / 256⌋ : ℤ) : ℚ))⟩
  else
    ⟨.uint8, image.data.map (fun x => (((⌊x⌋ : ℤ) % 256 : ℤ) : ℚ))⟩

/-! ## Configuration (translated from `utils/config.py`; the blockchain,
watermark and filesystem-path sections are never read by `to_dict` and are
omitted from the model). -/

/-- Application environment (from `config.py`). -/
inductive Environment
  | DEVELOPMENT
  | STAGING
  | PRODUCTION
  | TESTING
deriving DecidableEq, Repr

/-- The `str`-enum value of an `Environment`. -/
def Environment.value : Environment → String
  | .DEVELOPMENT => "development"
  | .STAGING => "staging"
  | .PRODUCTION => "production"
  | .TESTING => "testing"

structure DatabaseConfig where
  host : String := "localhost"
  port : ℕ := 5432
  name : String := "tastefully_stained"
  user : String := "postgres"
  password : String := ""
  pool_size : ℕ := 10
  ssl_mode : String := "prefer"
deriving DecidableEq, Repr

structure RedisConfig where
  host : String := "localhost"
  port : ℕ := 6379
  password : String := ""
  db : ℕ := 0
  ssl : Bool := false
deriving DecidableEq, Repr

structure APIConfig where
  host : String := "0.0.0.0"
  port : ℕ := 8000
  workers : ℕ := 4
  reload : Bool := false
  cors_origins : List String := ["*"]
  rate_limit_per_minute : ℕ := 60
  max_upload_size_mb : ℕ := 100
deriving DecidableEq, Repr

/-- Main application configuration (from `config.py`). -/
structure Config where
  environment : Environment := .DEVELOPMENT
  debug : Bool := true
  log_level : String := "INFO"
  secret_key : String := "change-me-in-production"
  database : DatabaseConfig := {}
  redis : RedisConfig := {}
  api : APIConfig := {}
deriving DecidableEq, Repr

/-- Heterogeneous values of the `to_dict` output dictionary. -/
inductive ConfigValue
  | s (v : String)
  | b (v : Bool)
  | n (v : ℕ)
deriving DecidableEq, Repr

/-- Translated from `Config.to_dict`: the exported dictionary; the two secret
fields are masked to `"***"` when non-empty (Python string truthiness) and
`""` otherwise. -/
def Config.to_dict (c : Config) : List (String × ConfigValue) :=
  [("environment", .s c.environment.value),
   ("debug", .b c.debug),
   ("log_level", .s c.log_level),
   ("database_host", .s c.database.host),
   ("redis_host", .s c.redis.host),
   ("api_port", .n c.api.port),
   ("secret_key", .s (if c.secret_key ≠ "" then "***" else "")),
   ("database_password", .s (if c.database.password ≠ "" then "***" else ""))]

/-! ## Concrete instances used by witnesses and counterexamples -/

/-- A concrete orchestrator: block size 4, strength 1/2 block engine;
level-2, strength-1/2 multi-resolution engine. -/
def oEx : HybridWatermarkOrchestrator := ⟨⟨1 / 2, 4⟩, ⟨"db4", 2, 1 / 2⟩⟩

/-- Codeword of the payload byte `84` (`b"T"`). -/
def encP : List Bool := codewordBits [84]

/-- Codeword of the decoy payload byte `85`. -/
def encPp : List Bool := codewordBits [85]

/-- An adversarial 128-pixel image: each 4-pixel block simultaneously carries
the block-engine codeword of `[84]` in its first pairwise difference and the
multi-resolution codeword of `[85]` in its level-2 detail coefficient. -/
def imgVdata : List ℚ :=
  (List.range 32).flatMap (fun i =>
    let a := bitAmp (1 / 2) (encP.getD i false)
    let b := bitAmp (1 / 2) (encPp.getD i false)
    [(b + a) / 2, (b - a) / 2, 0, 0])

def imgV : PixelBuffer := ⟨8, 16, 1, .uint8, imgVdata⟩

/-- An image on which the hybrid per-pixel merge destroys both engines'
coefficient evidence. -/
def imgOdata : List ℚ := (List.range 32).flatMap (fun _ => [16, 0, 0, 0])

def imgO : PixelBuffer := ⟨8, 16, 1, .uint8, imgOdata⟩

/-- A benign image on which stray (non-primary) extraction attempts fail. -/
def imgWdata : List ℚ := (List.range 32).flatMap (fun _ => [8, 0, 0, 0])

def imgW : PixelBuffer := ⟨8, 16, 1, .uint8, imgWdata⟩

/-- An unwatermarked image whose uniformly positive coefficients decode to an
oversized header in every extraction attempt. -/
def imgC5data : List ℚ := (List.range 32).flatMap (fun _ => [16, 8, 0, 0])

def imgC5 : PixelBuffer := ⟨8, 16, 1, .uint8, imgC5data⟩

/-- The all-zero 128-pixel image. -/
def img0 : PixelBuffer := ⟨8, 16, 1, .uint8, List.replicate 128 0⟩

/-- The embed result produced by the block engine on `imgW` (payload `[84]`,
redundancy 1). -/
def resW : EmbedResult :=
  ⟨{ imgW with data := dctEmbedData 4 ((encodeBits [84] 1).map (bitAmp (1 / 2))) imgW.data },
   .DCT_PRIMARY,
   oEx.dwt_watermarker.calculate_quality_metrics imgW
     { imgW with data := dctEmbedData 4 ((encodeBits [84] 1).map (bitAmp (1 / 2))) imgW.data }⟩

/-- The block-engine embed output on `img0` (payload `[84]`, redundancy 1). -/
def outDctEx : PixelBuffer :=
  { img0 with data := dctEmbedData 4 ((encodeBits [84] 1).map (bitAmp (1 / 2))) img0.data }

/-- The multi-resolution embed output on `img0` (payload `[84]`, redundancy 1). -/
def outDwtEx : PixelBuffer :=
  { img0 with data := dwtWrite 2 ((encodeBits [84] 1).map (bitAmp (1 / 2))) img0.data }

/-- A `uint8` array and a `float32` array for the dtype-conversion witness. -/
def arrU8 : NpArray := ⟨.uint8, [0, 17, 255]⟩

def arrF32 : NpArray := ⟨.float32, [1 / 2, 2, -1]⟩

/-- A configuration with both secrets populated. -/
def cEx : Config := { secret_key := "alpha", database := { password := "beta" } }

/-! ## Claim theorems -/

/-- C2: capacity boundary and atomicity — for every image and parameter set,
a payload whose encoded bit length exceeds `capacity_bits` makes
`embed_watermark` return `CapacityExceeded` (the check precedes any pixel
write, and in this pure model the error case produces no output buffer at
all, so the input image is untouched), while a payload whose encoded bit
length is exactly `capacity_bits` embeds successfully. -/
theorem C2_capacity_boundary (w : DCTWatermarker) (img : PixelBuffer)
    (payload : List ℕ) (r : ℕ) :
    (w.capacity_bits img < (encodeBits payload r).length →
      w.embed_watermark img payload r = .error .capacityExceeded) ∧
    ((encodeBits payload r).length = w.capacity_bits img →
      (w.embed_watermark img payload r).isOk = true) := by
  constructor
  · intro h
    rw [DCTWatermarker.embed_watermark, if_pos h]
  · intro h
    rw [DCTWatermarker.embed_watermark, if_neg (by omega)]
    rfl

/-- C2 witness: on the all-zero 128-pixel image (capacity 32 bits), the
two-byte payload (40 encoded bits) is rejected with `CapacityExceeded` and
the one-byte payload (exactly 32 encoded bits) embeds successfully. -/
theorem C2_capacity_boundary_witness :
    (oEx.dct_watermarker.embed_watermark img0 [84, 0] 1 = .error .capacityExceeded) ∧
    ((oEx.dct_watermarker.embed_watermark img0 [84] 1).isOk = true) :=
  ⟨(C2_capacity_boundary oEx.dct_watermarker img0 [84, 0] 1).1 (by decide),
   (C2_capacity_boundary oEx.dct_watermarker img0 [84] 1).2 (by decide)⟩

/-- C3: the power-of-two validation in `DCTWatermarker.__init__` uses
`block_size & (block_size - 1) != 0`, which accepts `block_size = 0` even
though `0` is not a power of two (`2 ^ k ≠ 0` for every `k`), contradicting
the constructor's own docstring; every other non-power (e.g. `6`) is
correctly rejected. -/
theorem C3_dct_accepts_block_size_zero :
    DCTWatermarker.init (1 / 2) 0 = .ok ⟨1 / 2, 0⟩ ∧
    (∀ k : ℕ, 2 ^ k ≠ 0) ∧
    DCTWatermarker.init (1 / 2) 6 = .error "Block size must be a power of 2" := by
  refine ⟨by decide, fun k => (pow_pos (by norm_num : (0 : ℕ) < 2) k).ne', by decide⟩

/-- C4: `DWTWatermarker.__init__` succeeds exactly when the wavelet is in the
fixed supported set, the level is at least 1, and the strength lies in
`[0,1]`; equivalently it raises exactly when one of those conditions fails. -/
theorem C4_dwt_constructor_validation (wv : String) (l : ℤ) (s : ℚ) :
    (∃ w', DWTWatermarker.init wv l s = .ok w')
      ↔ (wv ∈ DWTWatermarker.SUPPORTED_WAVELETS ∧ 1 ≤ l ∧ 0 ≤ s ∧ s ≤ 1) := by
  by_cases hmem : wv ∈ DWTWatermarker.SUPPORTED_WAVELETS
  · by_cases hl : l < 1
    · rw [DWTWatermarker.init, if_neg (not_not_intro hmem), if_pos hl]
      constructor
      · rintro ⟨w', hw⟩
        exact absurd hw (by simp)
      · rintro ⟨-, hl2, -⟩
        omega
    · by_cases hs : 0 ≤ s ∧ s ≤ 1
      · rw [DWTWatermarker.init, if_neg (not_not_intro hmem), if_neg hl,
          if_neg (not_not_intro hs)]
        constructor
        · rintro -
          exact ⟨hmem, by omega, hs.1, hs.2⟩
        · rintro -
          exact ⟨_, rfl⟩
      · rw [DWTWatermarker.init, if_neg (not_not_intro hmem), if_neg hl, if_pos hs]
        constructor
        · rintro ⟨w', hw⟩
          exact absurd hw (by simp)
        · rintro ⟨-, -, hs1, hs2⟩
          exact absurd ⟨hs1, hs2⟩ hs
  · rw [DWTWatermarker.init, if_pos hmem]
    constructor
    · rintro ⟨w', hw⟩
      exact absurd hw (by simp)
    · rintro ⟨hm, -, -⟩
      exact absurd hm hmem

/-- C5: extraction from an image with no recoverable watermark never throws —
`extract_watermark` is a total function, and whenever the confidence of the
best fallback attempt stays below the acceptance floor it returns a result
value with a null payload and that best confidence, rather than raising or
fabricating a payload. -/
theorem C5_extraction_below_floor (o : HybridWatermarkOrchestrator)
    (img : PixelBuffer) (r : ℕ)
    (h : (o.best_attempt img r).1.2 < acceptanceFloor) :
    (o.extract_watermark img r).data = none ∧
    (o.extract_watermark img r).confidence = (o.best_attempt img r).1.2 := by
  simp only [HybridWatermarkOrchestrator.extract_watermark]
  rw [if_neg (not_le.mpr h)]
  exact ⟨rfl, rfl⟩

/-- C5 witness: on `imgC5` every attempt decodes an oversized header
(CorruptedPayload), so the best confidence is 0 and extraction returns a null
payload with that confidence. -/
theorem C5_extraction_below_floor_witness :
    (oEx.extract_watermark imgC5 1).data = none ∧
    (oEx.extract_watermark imgC5 1).confidence = (oEx.best_attempt imgC5 1).1.2 :=
  C5_extraction_below_floor oEx imgC5 1 (by decide)

/-- C6: `calculate_quality_metrics` returns, for same-shape image pairs, a
mapping whose keys are exactly `"psnr"` and `"ssim"` (with rational values
standing in for floats), and every successful `embed_robust_watermark` result
carries exactly that mapping computed between the source image and the
watermarked output. -/
theorem C6_quality_metrics (w : DWTWatermarker) (a b : PixelBuffer)
    (hshape : a.height = b.height ∧ a.width = b.width ∧ a.channels = b.channels) :
    (w.calculate_quality_metrics a b).map Prod.fst = ["psnr", "ssim"] ∧
    ∀ (orch : HybridWatermarkOrchestrator) (img : PixelBuffer)
      (payload : List ℕ) (r : ℕ) (s : WatermarkStrategy),
      (orch.embed_robust_watermark img payload r s).map EmbedResult.quality_metrics
        = (orch.embed_robust_watermark img payload r s).map
            (fun res => orch.dwt_watermarker.calculate_quality_metrics img res.image) := by
  refine ⟨rfl, ?_⟩
  intro orch img payload r s
  rw [HybridWatermarkOrchestrator.embed_robust_watermark]
  cases resolveStrategy orch s img with
  | DCT_PRIMARY =>
    cases orch.dct_watermarker.embed_watermark img payload r <;> rfl
  | DWT_PRIMARY =>
    cases orch.dwt_watermarker.embed_watermark img payload r <;> rfl
  | HYBRID_DUAL =>
    cases orch.dct_watermarker.embed_watermark img payload r with
    | error e => rfl
    | ok a2 =>
      cases orch.dwt_watermarker.embed_watermark img payload r <;> rfl
  | AUTO =>
    cases orch.dct_watermarker.embed_watermark img payload r with
    | error e => rfl
    | ok a2 =>
      cases orch.dwt_watermarker.embed_watermark img payload r <;> rfl

/-- C6 witness: keys of the metrics mapping on the all-zero image, and
metric attachment on a concrete successful embed. -/
theorem C6_quality_metrics_witness :
    (oEx.dwt_watermarker.calculate_quality_metrics img0 img0).map Prod.fst
      = ["psnr", "ssim"] ∧
    (oEx.embed_robust_watermark img0 [84] 1 .DCT_PRIMARY).map
        EmbedResult.quality_metrics
      = (oEx.embed_robust_watermark img0 [84] 1 .DCT_PRIMARY).map
          (fun res => oEx.dwt_watermarker.calculate_quality_metrics img0 res.image) :=
  ⟨(C6_quality_metrics oEx.dwt_watermarker img0 img0 ⟨rfl, rfl, rfl⟩).1,
   (C6_quality_metrics oEx.dwt_watermarker img0 img0 ⟨rfl, rfl, rfl⟩).2
     oEx img0 [84] 1 .DCT_PRIMARY⟩

/-- C7: shape preservation — whenever either engine's `embed_watermark`
returns a watermarked buffer, that buffer has exactly the source's height,
width, channel count and element type, and its pixel data has the source's
length. -/
theorem C7_shape_preservation (w : DCTWatermarker) (w2 : DWTWatermarker)
    (img : PixelBuffer) (payload : List ℕ) (r : ℕ) (out out2 : PixelBuffer) :
    (w.embed_watermark img payload r = .ok out →
      out.height = img.height ∧ out.width = img.width
        ∧ out.channels = img.channels ∧ out.dtype = img.dtype
        ∧ out.data.length = img.data.length) ∧
    (w2.embed_watermark img payload r = .ok out2 →
      out2.height = img.height ∧ out2.width = img.width
        ∧ out2.channels = img.channels ∧ out2.dtype = img.dtype
        ∧ out2.data.length = img.data.length) := by
  constructor
  · intro hok
    rw [DCTWatermarker.embed_watermark] at hok
    split at hok
    · exact absurd hok (by simp)
    · cases hok
      exact ⟨rfl, rfl, rfl, rfl, dctEmbedData_length _ _ _⟩
  · intro hok
    rw [DWTWatermarker.embed_watermark] at hok
    split at hok
    · exact absurd hok (by simp)
    · cases hok
      exact ⟨rfl, rfl, rfl, rfl, dwtWrite_length _ _ _⟩

/-- C7 witness: both engines on the all-zero image preserve shape, dtype and
data length. -/
theorem C7_shape_preservation_witness :
    (outDctEx.height = img0.height ∧ outDctEx.width = img0.width
      ∧ outDctEx.channels = img0.channels ∧ outDctEx.dtype = img0.dtype
      ∧ outDctEx.data.length = img0.data.length) ∧
    (outDwtEx.height = img0.height ∧ outDwtEx.width = img0.width
      ∧ outDwtEx.channels = img0.channels ∧ outDwtEx.dtype = img0.dtype
      ∧ outDwtEx.data.length = img0.data.length) :=
  ⟨(C7_shape_preservation oEx.dct_watermarker oEx.dwt_watermarker img0 [84] 1
      outDctEx outDwtEx).1 (by decide),
   (C7_shape_preservation oEx.dct_watermarker oEx.dwt_watermarker img0 [84] 1
      outDctEx outDwtEx).2 (by decide)⟩

/-- C8: `ImageLoader.to_uint8` is total and idempotent — for every array it
returns (without raising) an array of dtype `uint8`; an array already of
dtype `uint8` is returned unchanged; hence `to_uint8` composed with itself
equals `to_uint8`. -/
theorem C8_to_uint8_idempotent (a : NpArray) :
    (ImageLoader.to_uint8 a).dtype = .uint8 ∧
    (a.dtype = .uint8 → ImageLoader.to_uint8 a = a) ∧
    ImageLoader.to_uint8 (ImageLoader.to_uint8 a) = ImageLoader.to_uint8 a := by
  obtain ⟨d, xs⟩ := a
  cases d <;> simp [ImageLoader.to_uint8]

/-- C8 witness: a `uint8` array passes through unchanged and a `float32`
array converts idempotently. -/
theorem C8_to_uint8_idempotent_witness :
    (ImageLoader.to_uint8 arrU8).dtype = .uint8 ∧
    ImageLoader.to_uint8 arrU8 = arrU8 ∧
    ImageLoader.to_uint8 (ImageLoader.to_uint8 arrF32) = ImageLoader.to_uint8 arrF32 :=
  ⟨(C8_to_uint8_idempotent arrU8).1,
   (C8_to_uint8_idempotent arrU8).2.1 rfl,
   (C8_to_uint8_idempotent arrF32).2.2⟩

/-- C9: `detect_format` never inspects file content — every bytes input
(including inputs beginning with a magic signature from `FORMAT_SIGNATURES`)
yields `UNKNOWN`; a path input yields `UNKNOWN` exactly when its lowercased
extension has no entry in `EXTENSION_MAP`, and otherwise the extension alone
determines the result. -/
theorem C9_detect_format_extension_only :
    (∀ bs : List ℕ, ImageLoader.detect_format (.bytes bs) = .UNKNOWN) ∧
    (∀ sig ∈ FORMAT_SIGNATURES, ∀ rest : List ℕ,
      ImageLoader.detect_format (.bytes (sig.1 ++ rest)) = .UNKNOWN) ∧
    (∀ p : String, EXTENSION_MAP.lookup (lowerStr (pathSuffix p)) = none →
      ImageLoader.detect_format (.path p) = .UNKNOWN) ∧
    (∀ (p : String) (f : ImageFormat),
      EXTENSION_MAP.lookup (lowerStr (pathSuffix p)) = some f →
      ImageLoader.detect_format (.path p) = f) := by
  refine ⟨fun bs => rfl, fun sig _ rest => rfl, fun p h => ?_, fun p f h => ?_⟩
  · simp [ImageLoader.detect_format, h]
  · simp [ImageLoader.detect_format, h]

/-- C9 witness: JPEG magic bytes still detect as `UNKNOWN`; an unmapped
extension gives `UNKNOWN`; an uppercase mapped extension gives its format. -/
theorem C9_detect_format_witness :
    ImageLoader.detect_format (.bytes [0xff, 0xd8, 0xff]) = .UNKNOWN ∧
    ImageLoader.detect_format (.path "photo.xyz") = .UNKNOWN ∧
    ImageLoader.detect_format (.path "dir/PHOTO.JPG") = .JPEG :=
  ⟨C9_detect_format_extension_only.1 [0xff, 0xd8, 0xff],
   C9_detect_format_extension_only.2.2.1 "photo.xyz" (by decide),
   C9_detect_format_extension_only.2.2.2 "dir/PHOTO.JPG" .JPEG (by decide)⟩

/-- C10: `Config.to_dict` masks secrets — changing the contents of
`secret_key` and `database.password` while preserving their (non-)emptiness
leaves the exported dictionary identical, and the masked entries are always
the constants `"***"` or `""`. -/
theorem C10_to_dict_masks_secrets (c : Config) (sk pw : String)
    (h1 : c.secret_key = "" ↔ sk = "") (h2 : c.database.password = "" ↔ pw = "") :
    Config.to_dict
        { c with secret_key := sk, database := { c.database with password := pw } }
      = Config.to_dict c ∧
    ((Config.to_dict c).lookup "secret_key" = some (.s "***")
      ∨ (Config.to_dict c).lookup "secret_key" = some (.s "")) ∧
    ((Config.to_dict c).lookup "database_password" = some (.s "***")
      ∨ (Config.to_dict c).lookup "database_password" = some (.s "")) := by
  refine ⟨?_, ?_, ?_⟩
  · have e1 : (if sk ≠ "" then "***" else "")
        = (if c.secret_key ≠ "" then "***" else "") := by
      by_cases hsk : sk = ""
      · simp [hsk, h1.mpr hsk]
      · have hcs : ¬c.secret_key = "" := fun hc => hsk (h1.mp hc)
        simp [hsk, hcs]
    have e2 : (if pw ≠ "" then "***" else "")
        = (if c.database.password ≠ "" then "***" else "") := by
      by_cases hpw : pw = ""
      · simp [hpw, h2.mpr hpw]
      · have hcp : ¬c.database.password = "" := fun hc => hpw (h2.mp hc)
        simp [hpw, hcp]
    simp [Config.to_dict, e1, e2]
  · by_cases hsk : c.secret_key = ""
    · right
      simp [Config.to_dict, List.lookup, hsk]
    · left
      simp [Config.to_dict, List.lookup, hsk]
  · by_cases hpw : c.database.password = ""
    · right
      simp [Config.to_dict, List.lookup, hpw]
    · left
      simp [Config.to_dict, List.lookup, hpw]

/-- C10 witness: replacing the populated secrets `"alpha"`/`"beta"` with
`"gamma"`/`"delta"` leaves the exported dictionary identical, and the masked
entries are the fixed constants. -/
theorem C10_to_dict_masks_secrets_witness :
    Config.to_dict
        { cEx with secret_key := "gamma",
                   database := { cEx.database with password := "delta" } }
      = Config.to_dict cEx ∧
    ((Config.to_dict cEx).lookup "secret_key" = some (.s "***")
      ∨ (Config.to_dict cEx).lookup "secret_key" = some (.s "")) ∧
    ((Config.to_dict cEx).lookup "database_password" = some (.s "***")
      ∨ (Config.to_dict cEx).lookup "database_password" = some (.s "")) :=
  C10_to_dict_masks_secrets cEx "gamma" "delta" (by decide) (by decide)

theorem betterOf_right (a b : (Option (List ℕ) × ℚ) × WatermarkStrategy)
    (h : a.1.2 < b.1.2) : betterOf a b = b := by
  rw [betterOf, if_pos h]

theorem betterOf_left (a b : (Option (List ℕ) × ℚ) × WatermarkStrategy)
    (h : ¬a.1.2 < b.1.2) : betterOf a b = a := by
  rw [betterOf, if_neg h]

/-- C1 (amended): for `DCT_PRIMARY` and `DWT_PRIMARY` — including `AUTO`
whenever its content analysis resolves to one of them — embedding a payload
within capacity (with a positive redundancy factor, byte-valued payload
entries and a length fitting the 16-bit header) and extracting from the
untouched watermarked output returns the payload with confidence
`1 ≥ 0.95`, provided the strategy-blind extraction's other attempts (the
combined vote merge, and the non-primary domain alone) do not spuriously
reach full confidence.  The original claim's quantification over every
strategy fails: `HYBRID_DUAL`'s per-pixel merge of the two watermarked
working copies can destroy both domains' coefficient evidence, and a
non-primary domain can decode a different payload at full confidence
(see the counterexample). -/
theorem C1_roundtrip_amended (o : HybridWatermarkOrchestrator) (img : PixelBuffer)
    (payload : List ℕ) (r : ℕ) (strategy : WatermarkStrategy) (res : EmbedResult)
    (hr : 1 ≤ r) (hL : payload.length < 2 ^ headerWidth)
    (hb : ∀ b ∈ payload, b < 256)
    (hsD : 0 ≤ o.dct_watermarker.strength) (hsW : 0 ≤ o.dwt_watermarker.strength)
    (hemb : o.embed_robust_watermark img payload r strategy = .ok res)
    (hsingle : resolveStrategy o strategy img = .DCT_PRIMARY
      ∨ resolveStrategy o strategy img = .DWT_PRIMARY)
    (hcomb : (o.combined_attempt res.image r).2 < 1)
    (hwA : resolveStrategy o strategy img = .DCT_PRIMARY →
      (o.dwt_attempt res.image r).2 < 1)
    (hwB : resolveStrategy o strategy img = .DWT_PRIMARY →
      (o.dct_attempt res.image r).2 < 1) :
    (o.extract_watermark res.image r).data = some payload ∧
    (95 : ℚ) / 100 ≤ (o.extract_watermark res.image r).confidence := by
  rcases hsingle with hcase | hcase
  · have hdw := hwA hcase
    rw [HybridWatermarkOrchestrator.embed_robust_watermark, hcase] at hemb
    cases hdct : o.dct_watermarker.embed_watermark img payload r with
    | error e =>
      rw [hdct] at hemb
      exact absurd hemb (by simp [Except.map])
    | ok out =>
      rw [hdct] at hemb
      have hemb' : Except.ok (ε := WatermarkError)
          (⟨out, .DCT_PRIMARY,
            o.dwt_watermarker.calculate_quality_metrics img out⟩ : EmbedResult)
          = .ok res := hemb
      obtain rfl : (⟨out, .DCT_PRIMARY,
          o.dwt_watermarker.calculate_quality_metrics img out⟩ : EmbedResult)
          = res := by
        injection hemb'
      have hprim : o.dct_attempt out r = (some payload, 1) :=
        dct_embed_extract _ _ _ _ _ hr hsD hL hb hdct
      have hcomb' : (o.combined_attempt out r).2 < 1 := hcomb
      have hdw' : (o.dwt_attempt out r).2 < 1 := hdw
      have hbest : o.best_attempt out r = ((some payload, 1), .DCT_PRIMARY) := by
        rw [HybridWatermarkOrchestrator.best_attempt]
        by_cases hcd : (o.combined_attempt out r).2 < (o.dwt_attempt out r).2
        · rw [betterOf_right
              (o.combined_attempt out r, WatermarkStrategy.HYBRID_DUAL)
              (o.dwt_attempt out r, WatermarkStrategy.DWT_PRIMARY) hcd,
            betterOf_right _ _ (by
              show (o.dwt_attempt out r).2 < (o.dct_attempt out r).2
              rw [hprim]
              exact hdw'), hprim]
        · rw [betterOf_left
              (o.combined_attempt out r, WatermarkStrategy.HYBRID_DUAL)
              (o.dwt_attempt out r, WatermarkStrategy.DWT_PRIMARY) hcd,
            betterOf_right _ _ (by
              show (o.combined_attempt out r).2 < (o.dct_attempt out r).2
              rw [hprim]
              exact hcomb'), hprim]
      have hfloor : acceptanceFloor ≤ (((some payload, 1),
          WatermarkStrategy.DCT_PRIMARY) :
            (Option (List ℕ) × ℚ) × WatermarkStrategy).1.2 := by
        show acceptanceFloor ≤ 1
        rw [acceptanceFloor]
        norm_num
      constructor
      · show (o.extract_watermark out r).data = some payload
        simp only [HybridWatermarkOrchestrator.extract_watermark, hbest]
        rw [if_pos hfloor]
      · show (95 : ℚ) / 100 ≤ (o.extract_watermark out r).confidence
        simp only [HybridWatermarkOrchestrator.extract_watermark, hbest]
        rw [if_pos hfloor]
        show (95 : ℚ) / 100 ≤ 1
        norm_num
  · have hdc := hwB hcase
    rw [HybridWatermarkOrchestrator.embed_robust_watermark, hcase] at hemb
    cases hdwt : o.dwt_watermarker.embed_watermark img payload r with
    | error e =>
      rw [hdwt] at hemb
      exact absurd hemb (by simp [Except.map])
    | ok out =>
      rw [hdwt] at hemb
      have hemb' : Except.ok (ε := WatermarkError)
          (⟨out, .DWT_PRIMARY,
            o.dwt_watermarker.calculate_quality_metrics img out⟩ : EmbedResult)
          = .ok res := hemb
      obtain rfl : (⟨out, .DWT_PRIMARY,
          o.dwt_watermarker.calculate_quality_metrics img out⟩ : EmbedResult)
          = res := by
        injection hemb'
      have hprim : o.dwt_attempt out r = (some payload, 1) :=
        dwt_embed_extract _ _ _ _ _ hr hsW hL hb hdwt
      have hcomb' : (o.combined_attempt out r).2 < 1 := hcomb
      have hdc' : (o.dct_attempt out r).2 < 1 := hdc
      have hbest : o.best_attempt out r = ((some payload, 1), .DWT_PRIMARY) := by
        rw [HybridWatermarkOrchestrator.best_attempt]
        rw [betterOf_right
            (o.combined_attempt out r, WatermarkStrategy.HYBRID_DUAL)
            (o.dwt_attempt out r, WatermarkStrategy.DWT_PRIMARY) (by
              show (o.combined_attempt out r).2 < (o.dwt_attempt out r).2
              rw [hprim]
              exact hcomb'), hprim,
          betterOf_left _ _ (by
            show ¬((1 : ℚ)) < (o.dct_attempt out r).2
            exact not_lt.mpr (le_of_lt hdc'))]
      have hfloor : acceptanceFloor ≤ (((some payload, 1),
          WatermarkStrategy.DWT_PRIMARY) :
            (Option (List ℕ) × ℚ) × WatermarkStrategy).1.2 := by
        show acceptanceFloor ≤ 1
        rw [acceptanceFloor]
        norm_num
      constructor
      · show (o.extract_watermark out r).data = some payload
        simp only [HybridWatermarkOrchestrator.extract_watermark, hbest]
        rw [if_pos hfloor]
      · show (95 : ℚ) / 100 ≤ (o.extract_watermark out r).confidence
        simp only [HybridWatermarkOrchestrator.extract_watermark, hbest]
        rw [if_pos hfloor]
        show (95 : ℚ) / 100 ≤ 1
        norm_num

/-- C1 witness for the amended round trip: on the benign image `imgW`, the
block-primary embed of payload `[84]` extracts back `[84]` with confidence
`1 ≥ 0.95` (the combined and multi-resolution attempts each stay below full
confidence, as the amendment requires). -/
theorem C1_roundtrip_amended_witness :
    (oEx.extract_watermark resW.image 1).data = some [84] ∧
    (95 : ℚ) / 100 ≤ (oEx.extract_watermark resW.image 1).confidence :=
  C1_roundtrip_amended oEx imgW [84] 1 .DCT_PRIMARY resW (by decide) (by decide)
    (by decide) (by decide) (by decide) (by decide)
    (Or.inl (by decide)) (by decide)
    (fun _ => by decide) (fun h => absurd h (by decide))

/-- C1 counterexample to the claim as stated: with payload `[84]` within
capacity, (a) under `DCT_PRIMARY` the adversarial image `imgV` embeds
successfully but extraction returns the different payload `[85]` (the
multi-resolution attempt decodes a planted codeword at full confidence and
outranks the correct block-domain evidence), and (b) under `HYBRID_DUAL` the
image `imgO` embeds successfully but extraction returns a null payload (the
per-pixel merge of the two working copies destroys both domains' coefficient
evidence). -/
theorem C1_roundtrip_counterexample :
    ((encodeBits [84] 1).length ≤ oEx.dct_watermarker.capacity_bits imgV
      ∧ (oEx.embed_robust_watermark imgV [84] 1 .DCT_PRIMARY).map
          (fun res => (oEx.extract_watermark res.image 1).data) = .ok (some [85])
      ∧ some [85] ≠ some [84])
    ∧ ((encodeBits [84] 1).length ≤ oEx.dct_watermarker.capacity_bits imgO
      ∧ (encodeBits [84] 1).length ≤ oEx.dwt_watermarker.capacity_bits imgO
      ∧ (oEx.embed_robust_watermark imgO [84] 1 .HYBRID_DUAL).map
          (fun res => (oEx.extract_watermark res.image 1).data) = .ok none) :=
  ⟨⟨by decide, by decide, by decide⟩, by decide, by decide, by decide⟩

end Stained